import Mathlib

/-!
Shallow embedding of the concurrency-control core of `src/hw4/student.py`:
the per-key `Lock` state machine, the `TransactionHandler` request protocol
(put/get/commit/abort/check_lock with undo log), and the
`TransactionCoordinator.detect_deadlocks` scan.

Modelling conventions, matching the Python source:
* transactions are identified by their `xid` (a `Nat`); the source stores
  handler objects in the lock table, and xids are assumed unique, so the
  identification is faithful;
* keys and values are strings; a Python value of `None` is `Option.none`
  (the store collaborator, `kvstore.py`, is not part of the sources; per the
  spec it is a per-key map with `get` returning the stored value or absent,
  and `put` overwriting, so it is embedded as `String → Option String`);
* `Lock.request_queue` is `None` initially in Python and only ever tested
  for truthiness (`if self.request_queue:`), under which `None` and the
  empty list behave identically, so it is embedded as a plain list;
* Python `list.remove` removes the first occurrence, i.e. `List.erase`;
  `dict` preserves insertion order, so the lock table is an association
  list to which new keys are appended.
-/

inductive LockMode where
  | ExclusiveLock
  | SharedLock
deriving DecidableEq, Repr

structure RequestLock where
  transaction : Nat
  mode : LockMode
deriving DecidableEq, Repr

structure Lock where
  transactions : List Nat
  mode : Option LockMode
  request_queue : List RequestLock
deriving DecidableEq, Repr

/-- `Lock.__init__(transaction, mode)`: the new lock starts with the creating
transaction as its only holder. -/
def Lock.init (t : Nat) (m : LockMode) : Lock :=
  { transactions := [t], mode := some m, request_queue := [] }

def Lock.can_acquire_lock (l : Lock) (t : Nat) (m : LockMode) : Bool :=
  if l.transactions.length = 0 then true
  else if l.mode = some LockMode.ExclusiveLock then l.transactions.contains t
  else if m = LockMode.SharedLock then true
  else if l.transactions.length = 1 ∧ l.transactions.contains t then
    m = LockMode.ExclusiveLock
  else false

/-- Body of `has_request_and_update` inside `Lock._append_request`: scan the
queue for the first entry whose transaction matches AND whose mode is
SharedLock, mutate its mode in place; report whether such an entry was found. -/
def updateQueue (q : List RequestLock) (t : Nat) (m : LockMode) :
    Option (List RequestLock) :=
  match q with
  | [] => none
  | r :: rs =>
    if r.transaction = t ∧ r.mode = LockMode.SharedLock then
      some ({ transaction := r.transaction, mode := m } :: rs)
    else
      (updateQueue rs t m).map (fun q2 => r :: q2)

/-- `Lock._append_request`. In Python an empty (or `None`) queue takes the
`else` branch and becomes the one-element list, which coincides with
appending, so both branches are the match below. -/
def Lock.append_request (l : Lock) (t : Nat) (m : LockMode) : Lock :=
  match updateQueue l.request_queue t m with
  | some q => { l with request_queue := q }
  | none =>
      { l with
        request_queue := l.request_queue ++ [{ transaction := t, mode := m }] }

/-- `Lock.request_lock`: returns the updated lock and the granted flag. -/
def Lock.request_lock (l : Lock) (t : Nat) (m : LockMode) : Lock × Bool :=
  if l.can_acquire_lock t m then
    ({ l with
        transactions :=
          if l.transactions.contains t then l.transactions
          else l.transactions ++ [t],
        mode := some m }, true)
  else
    (Lock.append_request { l with transactions := l.transactions.erase t } t m,
      false)

/-- `Lock._grant_request`: pop the head of the queue (if any), append its
transaction to the holders and set the mode to its requested mode. -/
def Lock.grant_request (l : Lock) : Lock :=
  match l.request_queue with
  | [] => l
  | r :: rs =>
      { transactions := l.transactions ++ [r.transaction],
        mode := some r.mode,
        request_queue := rs }

/-- `Lock.release_lock`. -/
def Lock.release_lock (l : Lock) (t : Nat) : Lock :=
  let l1 : Lock := { l with transactions := l.transactions.erase t }
  if l1.transactions.length = 0 then
    Lock.grant_request { l1 with mode := none }
  else l1

def Lock.hold_lock (l : Lock) (t : Nat) (m : LockMode) : Bool :=
  l.transactions.contains t && l.mode = some m

def Lock.first_current_transaction (l : Lock) : Option Nat :=
  l.transactions.head?

example : (Lock.request_lock (Lock.init 1 LockMode.ExclusiveLock) 2
    LockMode.ExclusiveLock).2 = false := by decide
example : (Lock.request_lock (Lock.init 1 LockMode.SharedLock) 2
    LockMode.SharedLock).2 = true := by decide
example : (Lock.request_lock (Lock.init 1 LockMode.SharedLock) 1
    LockMode.ExclusiveLock).2 = true := by decide

/-! ## The lock table, the store and the transaction handler -/

/-- The lock table, a Python `dict` keyed by string: an insertion-ordered
association list (new keys are appended at the end). -/
abbrev Table : Type := List (String × Lock)

/-- `Modelled from the spec:` the key-value store collaborator (`kvstore.py`
is not among the sources). Per the spec it offers `get(key) -> value |
absent` and `put(key, value) -> unit`, immediately consistent; Python's
`abort` may `put` a `None` prior value, and `get` then reports absence, so a
stored slot is an `Option String`. -/
abbrev Store : Type := String → Option String

def Store.get (st : Store) (k : String) : Option String := st k

def Store.put (st : Store) (k : String) (v : Option String) : Store :=
  fun k2 => if k2 = k then v else st k2

def Table.get (tbl : Table) (k : String) : Option Lock :=
  (List.find? (fun p => p.1 = k) tbl).map (fun p => p.2)

/-- Overwrite the lock stored under key `k` (Python mutates the `Lock`
object aliased from the dict, which keeps the key's position). -/
def Table.set (tbl : Table) (k : String) (l : Lock) : Table :=
  List.map (fun p => if p.1 = k then (p.1, l) else p) tbl

/-- The pending operation stored in `self._desired_lock`: in Python it is a
closure `lambda: self.perform_put(key, value)` / `lambda:
self.perform_get(key)` re-invoking the original request on the current
state; it is embedded as the tag of that request. -/
inductive PendingOp where
  | putOp (key value : String)
  | getOp (key : String)
deriving DecidableEq, Repr

/-- The per-transaction fields of `TransactionHandler` (the shared lock
table and store are passed explicitly). -/
structure Handler where
  acquired_locks : List String
  desired_lock : Option (String × LockMode × PendingOp)
  xid : Nat
  undo_log : List (String × Option String)
deriving DecidableEq, Repr

/-- `TransactionHandler.__init__`. -/
def Handler.init (xid : Nat) : Handler :=
  { acquired_locks := [], desired_lock := none, xid := xid, undo_log := [] }

/-- Abort modes: `USER = 0`, `DEADLOCK = 1` (plain ints in the source). -/
def USER : Nat := 0

def DEADLOCK : Nat := 1

/-- Result of one handler step: the updated handler, lock table, store and
the Python return value (`none` embeds Python `None`). -/
structure StepResult where
  handler : Handler
  table : Table
  store : Store
  ret : Option String

/-- `TransactionHandler.perform_put`. -/
def perform_put (h : Handler) (tbl : Table) (st : Store) (key value : String) :
    StepResult :=
  let created : Lock × Table :=
    match Table.get tbl key with
    | some l => (l, tbl)
    | none =>
        let l := Lock.init h.xid LockMode.ExclusiveLock
        (l, tbl ++ [(key, l)])
  let rl := Lock.request_lock created.1 h.xid LockMode.ExclusiveLock
  let tbl2 := Table.set created.2 key rl.1
  if rl.2 then
    let old := Store.get st key
    { handler :=
        { h with
          undo_log := h.undo_log ++ [(key, old)],
          acquired_locks := h.acquired_locks ++ [key] },
      table := tbl2,
      store := Store.put st key (some value),
      ret := some "Success" }
  else
    { handler :=
        { h with
          desired_lock :=
            some (key, LockMode.ExclusiveLock, PendingOp.putOp key value) },
      table := tbl2, store := st, ret := none }

/-- `TransactionHandler.perform_get`. -/
def perform_get (h : Handler) (tbl : Table) (st : Store) (key : String) :
    StepResult :=
  let created : Lock × Table :=
    match Table.get tbl key with
    | some l => (l, tbl)
    | none =>
        let l := Lock.init h.xid LockMode.SharedLock
        (l, tbl ++ [(key, l)])
  let rl := Lock.request_lock created.1 h.xid LockMode.SharedLock
  let tbl2 := Table.set created.2 key rl.1
  if rl.2 then
    let h2 := { h with acquired_locks := h.acquired_locks ++ [key] }
    match Store.get st key with
    | none => { handler := h2, table := tbl2, store := st,
                ret := some "No such key" }
    | some v => { handler := h2, table := tbl2, store := st, ret := some v }
  else
    { handler :=
        { h with
          desired_lock := some (key, LockMode.SharedLock, PendingOp.getOp key) },
      table := tbl2, store := st, ret := none }

/-- `TransactionHandler.release_and_grant_locks`: release every key in
`self._acquired_locks`, then clear the list. (The source's
`self._lock_table.get(l)` cannot return `None` for an acquired key, since
acquiring inserted the entry and the table never shrinks; the impossible
branch leaves the table unchanged.) -/
def releaseStep (x : Nat) (tbl : Table) (k : String) : Table :=
  match Table.get tbl k with
  | some l => Table.set tbl k (Lock.release_lock l x)
  | none => tbl

def release_and_grant_locks (h : Handler) (tbl : Table) : Handler × Table :=
  ({ h with acquired_locks := [] },
   List.foldl (releaseStep h.xid) tbl h.acquired_locks)

/-- `TransactionHandler.commit`. -/
def commit (h : Handler) (tbl : Table) : Handler × Table × String :=
  let r := release_and_grant_locks h tbl
  (r.1, r.2, "Transaction Completed")

/-- The undo loop of `TransactionHandler.abort`: pop `(k, v)` pairs from the
end of the undo log and `put` each prior value back (last entry first). -/
def replayUndo (log : List (String × Option String)) (st : Store) : Store :=
  List.foldr (fun p acc => Store.put acc p.1 p.2) st log

/-- `TransactionHandler.abort`. -/
def abort (h : Handler) (tbl : Table) (st : Store) (mode : Nat) :
    Handler × Table × Store × String :=
  let st2 := replayUndo h.undo_log st
  let h2 := { h with undo_log := [] }
  let r := release_and_grant_locks h2 tbl
  (r.1, r.2, st2, if mode = USER then "User Abort" else "Deadlock Abort")

/-- Re-invoke the operation captured in a retry thunk. -/
def runOp (op : PendingOp) (h : Handler) (tbl : Table) (st : Store) :
    StepResult :=
  match op with
  | PendingOp.putOp k v => perform_put h tbl st k v
  | PendingOp.getOp k => perform_get h tbl st k

/-- Python truthiness of a handler return value: `None` and the empty
string are falsy, any other string is truthy. -/
def truthy (v : Option String) : Bool :=
  match v with
  | none => false
  | some s => s ≠ ""

/-- `TransactionHandler.check_lock`. (The `self._lock_table.get(key)`
lookup cannot miss for a recorded desired lock — the entry was created when
the request blocked — so the impossible branch returns `none` unchanged.) -/
def check_lock (h : Handler) (tbl : Table) (st : Store) : StepResult :=
  match h.desired_lock with
  | none => { handler := h, table := tbl, store := st, ret := none }
  | some (key, lock_mode, op) =>
    match Table.get tbl key with
    | none => { handler := h, table := tbl, store := st, ret := none }
    | some lock =>
      if Lock.hold_lock lock h.xid lock_mode then
        let r := runOp op h tbl st
        if truthy r.ret then
          { r with handler := { r.handler with desired_lock := none } }
        else r
      else
        { handler := h, table := tbl, store := st, ret := none }

/-! ## The transaction coordinator -/

/-- Look a transaction up by xid among the handlers (the source stores the
handler objects themselves in the lock table; xids are unique by
assumption, so lookup by xid is the faithful counterpart). -/
def findHandler (hs : List Handler) (x : Nat) : Option Handler :=
  List.find? (fun h => h.xid = x) hs

/-- `get_desired_key_tranc` inside `detect_deadlocks`: take the lock's first
current transaction `t` and return `(t._desired_lock[0], t)`. Every failure
(`t` is `None`, `t._desired_lock` is `None`) raises inside the caller's
`try` and is embedded as `none`. -/
def get_desired_key_tranc (hs : List Handler) (l : Lock) :
    Option (String × Handler) :=
  match Lock.first_current_transaction l with
  | none => none
  | some x =>
    match findHandler hs x with
    | none => none
    | some t =>
      match t.desired_lock with
      | none => none
      | some d => some (d.1, t)

/-- One iteration of the `detect_deadlocks` loop at entry `(key, lock)`:
`some` when the two-hop chain closes (with the pair of handlers), `none`
when any step raises or the chain does not come back (the `except: continue`
path). -/
def detectAt (hs : List Handler) (tbl : Table) (key : String) (lock : Lock) :
    Option (Handler × Handler) :=
  match get_desired_key_tranc hs lock with
  | none => none
  | some (desired_key, t) =>
    match Table.get tbl desired_key with
    | none => none
    | some other_lock =>
      match get_desired_key_tranc hs other_lock with
      | none => none
      | some (other_desired_key, other_t) =>
        if other_desired_key = key then some (t, other_t) else none

/-- The `for key, lock in self._lock_table.items()` loop of
`detect_deadlocks`, scanning `entries` in insertion order while `tbl` stays
the whole table for the inner lookups. -/
def detectLoop (hs : List Handler) (tbl : Table) :
    List (String × Lock) → Option Nat
  | [] => none
  | (key, lock) :: rest =>
    match detectAt hs tbl key lock with
    | some (t, other_t) => some (min t.xid other_t.xid)
    | none => detectLoop hs tbl rest

/-- `TransactionCoordinator.detect_deadlocks` over the lock table `tbl`,
with `hs` the handlers standing for the transaction objects. -/
def detect_deadlocks (hs : List Handler) (tbl : Table) : Option Nat :=
  detectLoop hs tbl tbl

/-! ## Well-formedness of a lock (claim C1) -/

/-- The lock-table invariant of the spec: Exclusive mode has exactly one
holder; the holder set is empty exactly when the mode is absent. -/
def Lock.WF (l : Lock) : Prop :=
  (l.mode = some LockMode.ExclusiveLock → l.transactions.length = 1) ∧
  (l.transactions = [] ↔ l.mode = none)

lemma append_request_transactions (l : Lock) (t : Nat) (m : LockMode) :
    (l.append_request t m).transactions = l.transactions := by
  unfold Lock.append_request
  cases updateQueue l.request_queue t m <;> rfl

lemma append_request_mode (l : Lock) (t : Nat) (m : LockMode) :
    (l.append_request t m).mode = l.mode := by
  unfold Lock.append_request
  cases updateQueue l.request_queue t m <;> rfl



lemma can_acquire_true_cases (l : Lock) (t : Nat) (m : LockMode)
    (hc : l.can_acquire_lock t m = true) :
    l.transactions = [] ∨
    (l.mode = some LockMode.ExclusiveLock ∧ t ∈ l.transactions) ∨
    (l.mode ≠ some LockMode.ExclusiveLock ∧ l.transactions ≠ [] ∧
      m = LockMode.SharedLock) ∨
    (l.mode ≠ some LockMode.ExclusiveLock ∧ m = LockMode.ExclusiveLock ∧
      l.transactions.length = 1 ∧ t ∈ l.transactions) := by
  unfold Lock.can_acquire_lock at hc
  split_ifs at hc with h1 h2 h3 h4
  · exact Or.inl (List.length_eq_zero.mp h1)
  · exact Or.inr (Or.inl ⟨h2, List.elem_iff.mp hc⟩)
  · exact Or.inr (Or.inr (Or.inl ⟨h2, fun he => h1 (by simp [he]), h3⟩))
  · exact Or.inr (Or.inr (Or.inr ⟨h2, by simpa using hc, h4.1,
      List.elem_iff.mp h4.2⟩))

lemma can_acquire_false_facts (l : Lock) (t : Nat) (m : LockMode)
    (hc : l.can_acquire_lock t m = false) :
    l.transactions ≠ [] ∧
    (l.mode = some LockMode.ExclusiveLock → t ∉ l.transactions) ∧
    (l.mode ≠ some LockMode.ExclusiveLock →
      m = LockMode.ExclusiveLock ∧
      ¬(l.transactions.length = 1 ∧ t ∈ l.transactions)) := by
  unfold Lock.can_acquire_lock at hc
  split_ifs at hc with h1 h2 h3 h4
  · refine ⟨fun he => h1 (by simp [he]), fun _ => ?_, fun hm => absurd h2 hm⟩
    intro hmem
    exact absurd ((List.elem_iff.mpr hmem).symm.trans hc) (by decide)
  · exfalso
    cases m
    · simp at hc
    · exact h3 rfl
  · refine ⟨fun he => h1 (by simp [he]), fun hm => absurd hm h2, fun _ => ?_⟩
    refine ⟨?_, fun hp => h4 ⟨hp.1, List.elem_iff.mpr hp.2⟩⟩
    cases m
    · rfl
    · exact absurd rfl h3

lemma wf_request (l : Lock) (t : Nat) (m : LockMode) (hw : Lock.WF l) :
    Lock.WF (l.request_lock t m).1 := by
  obtain ⟨hx, hne⟩ := hw
  unfold Lock.request_lock
  by_cases hc : l.can_acquire_lock t m = true
  · simp only [hc, if_true]
    rcases can_acquire_true_cases l t m hc with he | ⟨hm, hmem⟩ |
        ⟨hm, hne2, hms⟩ | ⟨hm, hme, hlen, hmem⟩
    · constructor
      · intro _
        simp [he]
      · simp [he]
    · have hct : l.transactions.contains t = true := List.elem_iff.mpr hmem
      constructor
      · intro _
        simp only [hct, if_true]
        exact hx hm
      · simp only [hct, if_true]
        constructor
        · intro he
          exact absurd hmem (by simp [he])
        · intro hcon
          simp at hcon
    · constructor
      · intro hmx
        simp only [Option.some.injEq] at hmx
        rw [hmx] at hms
        cases hms
      · constructor
        · intro he
          by_cases hct : l.transactions.contains t = true
          · rw [if_pos hct] at he
            exact absurd he hne2
          · rw [if_neg hct] at he
            simp at he
        · intro hcon
          simp at hcon
    · have hct : l.transactions.contains t = true := List.elem_iff.mpr hmem
      constructor
      · intro _
        simp only [hct, if_true]
        exact hlen
      · simp only [hct, if_true]
        constructor
        · intro he
          exact absurd hmem (by simp [he])
        · intro hcon
          simp at hcon
  · rw [if_neg hc]
    rw [Bool.not_eq_true] at hc
    obtain ⟨hne2, hxm, hother⟩ := can_acquire_false_facts l t m hc
    dsimp only
    constructor
    · intro hmx
      rw [append_request_mode] at hmx
      rw [append_request_transactions]
      dsimp only at hmx ⊢
      have hnm : t ∉ l.transactions := hxm hmx
      rw [List.erase_of_not_mem hnm]
      exact hx hmx
    · rw [append_request_mode, append_request_transactions]
      dsimp only
      constructor
      · intro he
        by_cases hm : l.mode = some LockMode.ExclusiveLock
        · rw [List.erase_of_not_mem (hxm hm)] at he
          exact absurd he hne2
        · obtain ⟨_, hno⟩ := hother hm
          by_cases hmem : t ∈ l.transactions
          · have hl1 : l.transactions.length - 1 = 0 := by
              rw [← List.length_erase_of_mem hmem, he]
              rfl
            have hone : l.transactions.length = 1 := by
              have : l.transactions.length ≠ 0 := fun hz =>
                hne2 (List.length_eq_zero.mp hz)
              omega
            exact absurd ⟨hone, hmem⟩ hno
          · rw [List.erase_of_not_mem hmem] at he
            exact absurd he hne2
      · intro hmn
        exact absurd (hne.mpr hmn) hne2

lemma wf_release (l : Lock) (t : Nat) (hw : Lock.WF l) :
    Lock.WF (l.release_lock t) := by
  obtain ⟨hx, hne⟩ := hw
  unfold Lock.release_lock
  dsimp only
  split_ifs with h0
  · have he : l.transactions.erase t = [] := List.length_eq_zero.mp h0
    cases hq : l.request_queue with
    | nil =>
        constructor
        · simp [Lock.grant_request, hq, he]
        · simp [Lock.grant_request, hq, he]
    | cons r rs =>
        constructor
        · intro _
          simp [Lock.grant_request, hq, he]
        · simp [Lock.grant_request, hq, he]
  · constructor
    · intro hmx
      have hnm : t ∉ l.transactions := by
        intro hmem
        have hle := List.length_erase_of_mem hmem
        rw [hx hmx] at hle
        exact h0 (by simp [hle])
      rw [List.erase_of_not_mem hnm]
      exact hx hmx
    · constructor
      · intro he
        have he2 : l.transactions.erase t = [] := he
        exfalso
        apply h0
        rw [he2]
        rfl
      · intro hmn
        exfalso
        apply h0
        rw [hne.mpr hmn]
        rfl

/-- The operations the lock table applies to an existing lock. -/
inductive LockOp where
  | request (t : Nat) (m : LockMode)
  | release (t : Nat)
deriving DecidableEq, Repr

def Lock.applyOp (l : Lock) : LockOp → Lock
  | LockOp.request t m => (l.request_lock t m).1
  | LockOp.release t => l.release_lock t

def Lock.applyOps (l : Lock) (ops : List LockOp) : Lock :=
  ops.foldl Lock.applyOp l

lemma wf_init (t : Nat) (m : LockMode) : Lock.WF (Lock.init t m) := by
  constructor <;> simp [Lock.init]

lemma wf_applyOp (l : Lock) (op : LockOp) (hw : Lock.WF l) :
    Lock.WF (l.applyOp op) := by
  cases op with
  | request t m => exact wf_request l t m hw
  | release t => exact wf_release l t hw

lemma wf_applyOps (l : Lock) (ops : List LockOp) (hw : Lock.WF l) :
    Lock.WF (l.applyOps ops) := by
  induction ops generalizing l with
  | nil => exact hw
  | cons op rest ih => exact ih (l.applyOp op) (wf_applyOp l op hw)

/-- C1: for every lock created in the table (`Lock.init`, as built by
`perform_put`/`perform_get`), after any sequence of `request_lock` and
`release_lock` operations: if the mode is ExclusiveLock the holder list has
exactly one member, and if the holder list is empty the mode is absent;
consequently two transactions holding Exclusive on the same key are equal,
and an Exclusive holder excludes every other holder. -/
theorem C1_exclusive_mode_invariant (t0 : Nat) (m0 : LockMode)
    (ops : List LockOp) :
    ((Lock.applyOps (Lock.init t0 m0) ops).mode = some LockMode.ExclusiveLock →
      (Lock.applyOps (Lock.init t0 m0) ops).transactions.length = 1) ∧
    ((Lock.applyOps (Lock.init t0 m0) ops).transactions = [] →
      (Lock.applyOps (Lock.init t0 m0) ops).mode = none) ∧
    (∀ t1 t2 : Nat,
      Lock.hold_lock (Lock.applyOps (Lock.init t0 m0) ops) t1
        LockMode.ExclusiveLock = true →
      Lock.hold_lock (Lock.applyOps (Lock.init t0 m0) ops) t2
        LockMode.ExclusiveLock = true → t1 = t2) ∧
    (∀ t1 t2 : Nat,
      Lock.hold_lock (Lock.applyOps (Lock.init t0 m0) ops) t1
        LockMode.ExclusiveLock = true →
      t2 ∈ (Lock.applyOps (Lock.init t0 m0) ops).transactions → t2 = t1) := by
  obtain ⟨hx, hne⟩ := wf_applyOps (Lock.init t0 m0) ops (wf_init t0 m0)
  refine ⟨hx, hne.mp, ?_, ?_⟩
  · intro t1 t2 h1 h2
    simp only [Lock.hold_lock, Bool.and_eq_true, decide_eq_true_eq] at h1 h2
    obtain ⟨a, ha⟩ := List.length_eq_one.mp (hx h1.2)
    have e1 : t1 = a := by
      have := List.elem_iff.mp h1.1
      rw [ha] at this
      simpa using this
    have e2 : t2 = a := by
      have := List.elem_iff.mp h2.1
      rw [ha] at this
      simpa using this
    rw [e1, e2]
  · intro t1 t2 h1 hmem
    simp only [Lock.hold_lock, Bool.and_eq_true, decide_eq_true_eq] at h1
    obtain ⟨a, ha⟩ := List.length_eq_one.mp (hx h1.2)
    have e1 : t1 = a := by
      have := List.elem_iff.mp h1.1
      rw [ha] at this
      simpa using this
    rw [ha] at hmem
    simp at hmem
    rw [e1, hmem]

/-- Witness for C1 at a concrete run: transaction 1 creates the lock
exclusively, 2 requests shared and queues, 1 releases (granting 2 shared),
2 upgrades to exclusive. -/
theorem C1_exclusive_mode_invariant_witness :
    ((Lock.applyOps (Lock.init 1 LockMode.ExclusiveLock)
        [LockOp.request 2 LockMode.SharedLock, LockOp.release 1,
         LockOp.request 2 LockMode.ExclusiveLock]).mode =
          some LockMode.ExclusiveLock →
      (Lock.applyOps (Lock.init 1 LockMode.ExclusiveLock)
        [LockOp.request 2 LockMode.SharedLock, LockOp.release 1,
         LockOp.request 2 LockMode.ExclusiveLock]).transactions.length = 1) ∧
    ((Lock.applyOps (Lock.init 1 LockMode.ExclusiveLock)
        [LockOp.request 2 LockMode.SharedLock, LockOp.release 1,
         LockOp.request 2 LockMode.ExclusiveLock]).transactions = [] →
      (Lock.applyOps (Lock.init 1 LockMode.ExclusiveLock)
        [LockOp.request 2 LockMode.SharedLock, LockOp.release 1,
         LockOp.request 2 LockMode.ExclusiveLock]).mode = none) ∧
    (∀ t1 t2 : Nat,
      Lock.hold_lock (Lock.applyOps (Lock.init 1 LockMode.ExclusiveLock)
        [LockOp.request 2 LockMode.SharedLock, LockOp.release 1,
         LockOp.request 2 LockMode.ExclusiveLock]) t1
        LockMode.ExclusiveLock = true →
      Lock.hold_lock (Lock.applyOps (Lock.init 1 LockMode.ExclusiveLock)
        [LockOp.request 2 LockMode.SharedLock, LockOp.release 1,
         LockOp.request 2 LockMode.ExclusiveLock]) t2
        LockMode.ExclusiveLock = true → t1 = t2) ∧
    (∀ t1 t2 : Nat,
      Lock.hold_lock (Lock.applyOps (Lock.init 1 LockMode.ExclusiveLock)
        [LockOp.request 2 LockMode.SharedLock, LockOp.release 1,
         LockOp.request 2 LockMode.ExclusiveLock]) t1
        LockMode.ExclusiveLock = true →
      t2 ∈ (Lock.applyOps (Lock.init 1 LockMode.ExclusiveLock)
        [LockOp.request 2 LockMode.SharedLock, LockOp.release 1,
         LockOp.request 2 LockMode.ExclusiveLock]).transactions → t2 = t1) :=
  C1_exclusive_mode_invariant 1 LockMode.ExclusiveLock
    [LockOp.request 2 LockMode.SharedLock, LockOp.release 1,
     LockOp.request 2 LockMode.ExclusiveLock]

/-! ## Claim C3: the grant table of request_lock -/

instance (l : Lock) : Decidable (Lock.WF l) := by
  unfold Lock.WF
  infer_instance

lemma updateQueue_entry (q : List RequestLock) (t : Nat) (m : LockMode)
    (q2 : List RequestLock) (h : updateQueue q t m = some q2) :
    ∃ r ∈ q2, r.transaction = t := by
  induction q generalizing q2 with
  | nil => simp [updateQueue] at h
  | cons r rs ih =>
    unfold updateQueue at h
    split_ifs at h with hcond
    · simp only [Option.some.injEq] at h
      refine ⟨{ transaction := r.transaction, mode := m }, ?_, hcond.1⟩
      rw [← h]
      simp
    · cases hq : updateQueue rs t m with
      | none => rw [hq] at h; simp at h
      | some q3 =>
        rw [hq] at h
        simp only [Option.map, Option.some.injEq] at h
        obtain ⟨r2, hr2, ht⟩ := ih q3 hq
        exact ⟨r2, by rw [← h]; simp [hr2], ht⟩

lemma append_request_has_entry (l : Lock) (t : Nat) (m : LockMode) :
    ∃ r ∈ (l.append_request t m).request_queue, r.transaction = t := by
  unfold Lock.append_request
  cases hq : updateQueue l.request_queue t m with
  | none => exact ⟨{ transaction := t, mode := m }, by simp, rfl⟩
  | some q => exact updateQueue_entry l.request_queue t m q hq

lemma request_lock_snd (l : Lock) (t : Nat) (m : LockMode) :
    (l.request_lock t m).2 = l.can_acquire_lock t m := by
  unfold Lock.request_lock
  split <;> simp_all

/-- C3: for a well-formed lock, `request_lock` grants exactly per the spec's
canAcquire table (empty holders; Exclusive held solely by the requester;
Shared requested under Shared mode; sole-holder upgrade to Exclusive). On
grant it adds the requester to the holders if absent and sets the mode to
the requested mode, leaving the queue alone; on non-grant it removes the
requester from the holders, leaves the mode, records a queue entry for the
requester, and returns false. -/
theorem C3_request_lock_grant_table (l : Lock) (t : Nat) (m : LockMode)
    (hw : Lock.WF l) :
    ((l.request_lock t m).2 = true ↔
      (l.transactions = [] ∨
       (l.mode = some LockMode.ExclusiveLock ∧ l.transactions = [t]) ∨
       (m = LockMode.SharedLock ∧ l.mode = some LockMode.SharedLock) ∨
       (l.transactions = [t] ∧ m = LockMode.ExclusiveLock))) ∧
    ((l.request_lock t m).2 = true →
      ((l.request_lock t m).1.transactions =
        (if l.transactions.contains t then l.transactions
         else l.transactions ++ [t]) ∧
      (l.request_lock t m).1.mode = some m ∧
      (l.request_lock t m).1.request_queue = l.request_queue)) ∧
    ((l.request_lock t m).2 = false →
      ((l.request_lock t m).1.transactions = l.transactions.erase t ∧
      (l.request_lock t m).1.mode = l.mode ∧
      ∃ r ∈ (l.request_lock t m).1.request_queue, r.transaction = t)) := by
  obtain ⟨hx, hne⟩ := hw
  refine ⟨?_, ?_, ?_⟩
  · rw [request_lock_snd]
    constructor
    · intro hc
      rcases can_acquire_true_cases l t m hc with he | ⟨hm, hmem⟩ |
          ⟨hm, hne2, hms⟩ | ⟨hm, hme, hlen, hmem⟩
      · exact Or.inl he
      · refine Or.inr (Or.inl ⟨hm, ?_⟩)
        obtain ⟨a, ha⟩ := List.length_eq_one.mp (hx hm)
        rw [ha] at hmem ⊢
        simp at hmem
        rw [hmem]
      · refine Or.inr (Or.inr (Or.inl ⟨hms, ?_⟩))
        cases hmode : l.mode with
        | none => exact absurd (hne.mpr hmode) hne2
        | some mm =>
          cases mm with
          | ExclusiveLock => exact absurd hmode hm
          | SharedLock => rfl
      · refine Or.inr (Or.inr (Or.inr ⟨?_, hme⟩))
        obtain ⟨a, ha⟩ := List.length_eq_one.mp hlen
        rw [ha] at hmem ⊢
        simp at hmem
        rw [hmem]
    · intro hcase
      unfold Lock.can_acquire_lock
      rcases hcase with he | ⟨hm, hsole⟩ | ⟨hms, hmode⟩ | ⟨hsole, hme⟩
      · simp [he]
      · have hmem : l.transactions.contains t = true := by
          rw [hsole]
          simp
        simp [hsole, hm, hmem]
      · by_cases he : l.transactions.length = 0
        · simp [he]
        · simp [he, hmode, hms]
      · have hmem : l.transactions.contains t = true := by
          rw [hsole]
          simp
        by_cases hm : l.mode = some LockMode.ExclusiveLock
        · simp only [hm, if_true]
          split_ifs with h0
          · simp
          · exact hmem
        · simp [hsole, hm, hme, hmem]
  · intro hg
    rw [request_lock_snd] at hg
    unfold Lock.request_lock
    simp [hg]
  · intro hg
    rw [request_lock_snd] at hg
    unfold Lock.request_lock
    rw [hg]
    simp only [Bool.false_eq_true, if_false]
    refine ⟨?_, ?_, ?_⟩
    · rw [append_request_transactions]
    · rw [append_request_mode]
    · exact append_request_has_entry
        { l with transactions := l.transactions.erase t } t m

/-- Witness for C3: shared lock held by 1, transaction 2 requests shared. -/
theorem C3_request_lock_grant_table_witness :
    Lock.WF (Lock.init 1 LockMode.SharedLock) ∧
    (((Lock.init 1 LockMode.SharedLock).request_lock 2 LockMode.SharedLock).2
        = true ↔
      ((Lock.init 1 LockMode.SharedLock).transactions = [] ∨
       ((Lock.init 1 LockMode.SharedLock).mode = some LockMode.ExclusiveLock ∧
        (Lock.init 1 LockMode.SharedLock).transactions = [2]) ∨
       (LockMode.SharedLock = LockMode.SharedLock ∧
        (Lock.init 1 LockMode.SharedLock).mode = some LockMode.SharedLock) ∨
       ((Lock.init 1 LockMode.SharedLock).transactions = [2] ∧
        LockMode.SharedLock = LockMode.ExclusiveLock))) :=
  ⟨by decide,
   (C3_request_lock_grant_table (Lock.init 1 LockMode.SharedLock) 2
     LockMode.SharedLock (by decide)).1⟩

/-! ## Claim C6: release grants only the head of the wait queue -/

/-- C6: `release_lock` removes the transaction from the holders; exactly
when the holder list thereby becomes empty it clears the mode and grants
only the head entry of the wait queue (that entry's transaction becomes the
sole holder, the mode becomes its requested mode, and every later entry —
shared-compatible or not — stays queued in order, so an earlier-queued
request is granted no later than a later-queued one). -/
theorem C6_release_lock_grants_only_head (l : Lock) (t : Nat) :
    (l.transactions.erase t ≠ [] →
      l.release_lock t =
        { l with transactions := l.transactions.erase t }) ∧
    (l.transactions.erase t = [] →
      ((l.request_queue = [] →
        l.release_lock t =
          { transactions := [], mode := none, request_queue := [] }) ∧
      (∀ (r : RequestLock) (rs : List RequestLock),
        l.request_queue = r :: rs →
        l.release_lock t =
          { transactions := [r.transaction], mode := some r.mode,
            request_queue := rs }))) := by
  constructor
  · intro hne
    unfold Lock.release_lock
    dsimp only
    rw [if_neg]
    intro h0
    exact hne (List.length_eq_zero.mp h0)
  · intro he
    constructor
    · intro hq
      unfold Lock.release_lock
      dsimp only
      rw [if_pos (by rw [he]; rfl)]
      unfold Lock.grant_request
      simp [hq, he]
    · intro r rs hq
      unfold Lock.release_lock
      dsimp only
      rw [if_pos (by rw [he]; rfl)]
      unfold Lock.grant_request
      simp [hq, he]

/-- Witness for C6: holder 5 releases; head (7, Shared) is granted while the
shared-compatible entry (8, Shared) stays queued. -/
theorem C6_release_lock_grants_only_head_witness :
    ({ transactions := [5], mode := some LockMode.ExclusiveLock,
       request_queue := [{ transaction := 7, mode := LockMode.SharedLock },
         { transaction := 8, mode := LockMode.SharedLock }] } : Lock
      ).release_lock 5 =
      { transactions := [7], mode := some LockMode.SharedLock,
        request_queue := [{ transaction := 8, mode := LockMode.SharedLock }] } :=
  ((C6_release_lock_grants_only_head
      { transactions := [5], mode := some LockMode.ExclusiveLock,
        request_queue := [{ transaction := 7, mode := LockMode.SharedLock },
          { transaction := 8, mode := LockMode.SharedLock }] } 5).2
    (by decide)).2
    { transaction := 7, mode := LockMode.SharedLock }
    [{ transaction := 8, mode := LockMode.SharedLock }] rfl

/-! ## Claim C7: queued entries and the upgrade-in-queue rule -/

/-- The lock state of the C7 counterexample: transaction 2 already queued
with an Exclusive-mode entry (as left by a blocked exclusive request). -/
def lockC7 : Lock :=
  { transactions := [1], mode := some LockMode.ExclusiveLock,
    request_queue := [{ transaction := 2, mode := LockMode.ExclusiveLock }] }

/-- C7 counterexample: transaction 2 already has an Exclusive-mode entry
queued; a further (shared) request by 2 is appended as a duplicate instead
of mutating the existing entry, so the queue holds two entries for 2. -/
theorem C7_counterexample :
    (lockC7.request_lock 2 LockMode.SharedLock).1.request_queue =
      [{ transaction := 2, mode := LockMode.ExclusiveLock },
       { transaction := 2, mode := LockMode.SharedLock }] ∧
    ((lockC7.request_lock 2 LockMode.SharedLock).1.request_queue.countP
      (fun r => r.transaction == 2)) = 2 := by
  constructor <;> decide

lemma updateQueue_in_place (t : Nat) (m : LockMode) (q1 q2 : List RequestLock)
    (h1 : ∀ r ∈ q1, ¬(r.transaction = t ∧ r.mode = LockMode.SharedLock)) :
    updateQueue
        (q1 ++ { transaction := t, mode := LockMode.SharedLock } :: q2) t m =
      some (q1 ++ { transaction := t, mode := m } :: q2) := by
  induction q1 with
  | nil =>
    unfold updateQueue
    simp
  | cons r rs ih =>
    rw [List.cons_append, List.cons_append]
    simp only [updateQueue]
    rw [if_neg (h1 r (by simp))]
    rw [ih (fun r2 hr2 => h1 r2 (by simp [hr2]))]
    rfl

/-- C7 amended: the in-place mutation applies exactly to a queued
Shared-mode entry — when the transaction's earliest Shared-mode entry is
queued, a new request mutates that entry's mode in place (same position,
nothing appended, queue length unchanged); the claim's unconditional
at-most-one-entry guarantee fails when the queued entry is Exclusive
(C7_counterexample). -/
theorem C7_amended_shared_entry_updated_in_place (l : Lock) (t : Nat)
    (m : LockMode) (q1 q2 : List RequestLock)
    (hq : l.request_queue =
      q1 ++ { transaction := t, mode := LockMode.SharedLock } :: q2)
    (h1 : ∀ r ∈ q1, ¬(r.transaction = t ∧ r.mode = LockMode.SharedLock)) :
    (l.append_request t m).request_queue =
      q1 ++ { transaction := t, mode := m } :: q2 ∧
    (l.append_request t m).request_queue.length = l.request_queue.length := by
  have hu := updateQueue_in_place t m q1 q2 h1
  unfold Lock.append_request
  rw [hq, hu]
  simp

/-- Witness for C7's amended theorem: a queued (2, Shared) entry behind
(3, Exclusive) is upgraded in place by a new Exclusive request. -/
theorem C7_amended_witness :
    (({ transactions := [1], mode := some LockMode.ExclusiveLock,
        request_queue := [{ transaction := 3, mode := LockMode.ExclusiveLock },
          { transaction := 2, mode := LockMode.SharedLock }] } : Lock
      ).append_request 2 LockMode.ExclusiveLock).request_queue =
      [{ transaction := 3, mode := LockMode.ExclusiveLock }] ++
        [{ transaction := 2, mode := LockMode.ExclusiveLock }] :=
  (C7_amended_shared_entry_updated_in_place
    { transactions := [1], mode := some LockMode.ExclusiveLock,
      request_queue := [{ transaction := 3, mode := LockMode.ExclusiveLock },
        { transaction := 2, mode := LockMode.SharedLock }] }
    2 LockMode.ExclusiveLock
    [{ transaction := 3, mode := LockMode.ExclusiveLock }] [] rfl
    (by decide)).1

/-! ## Association-table lemmas -/

lemma table_get_cons (p : String × Lock) (tbl : Table) (k : String) :
    Table.get (p :: tbl) k = if p.1 = k then some p.2 else Table.get tbl k := by
  unfold Table.get
  rw [List.find?_cons]
  split_ifs with h
  · simp [h]
  · simp [h]

lemma table_set_cons (p : String × Lock) (tbl : Table) (k : String) (l : Lock) :
    Table.set (p :: tbl) k l =
      (if p.1 = k then (p.1, l) else p) :: Table.set tbl k l := by
  unfold Table.set
  rw [List.map_cons]

lemma table_get_set_eq (tbl : Table) (k : String) (l : Lock)
    (h : Table.get tbl k ≠ none) :
    Table.get (Table.set tbl k l) k = some l := by
  induction tbl with
  | nil => simp [Table.get] at h
  | cons p rest ih =>
    by_cases hp : p.1 = k
    · rw [table_set_cons, if_pos hp, table_get_cons]
      simp [hp]
    · rw [table_set_cons, if_neg hp, table_get_cons, if_neg hp]
      rw [table_get_cons, if_neg hp] at h
      exact ih h

lemma table_get_set_ne (tbl : Table) (k k2 : String) (l : Lock)
    (h : k2 ≠ k) :
    Table.get (Table.set tbl k l) k2 = Table.get tbl k2 := by
  induction tbl with
  | nil => rfl
  | cons p rest ih =>
    by_cases hp : p.1 = k
    · rw [table_set_cons, if_pos hp, table_get_cons, table_get_cons]
      dsimp only
      rw [hp, if_neg (fun e => h e.symm), if_neg (fun e => h e.symm)]
      exact ih
    · rw [table_set_cons, if_neg hp, table_get_cons, table_get_cons]
      by_cases hq : p.1 = k2
      · rw [if_pos hq, if_pos hq]
      · rw [if_neg hq, if_neg hq]
        exact ih

lemma table_get_append_self (tbl : Table) (k : String) (l : Lock)
    (h : Table.get tbl k = none) :
    Table.get (tbl ++ [(k, l)]) k = some l := by
  induction tbl with
  | nil => simp [Table.get, List.find?]
  | cons p rest ih =>
    by_cases hp : p.1 = k
    · rw [table_get_cons, if_pos hp] at h
      cases h
    · rw [List.cons_append, table_get_cons, if_neg hp]
      rw [table_get_cons, if_neg hp] at h
      exact ih h

lemma table_get_append_ne (tbl : Table) (k k2 : String) (l : Lock)
    (h : k2 ≠ k) :
    Table.get (tbl ++ [(k, l)]) k2 = Table.get tbl k2 := by
  induction tbl with
  | nil => simp [Table.get, List.find?, Ne.symm h]
  | cons p rest ih =>
    by_cases hq : p.1 = k2
    · rw [List.cons_append, table_get_cons, if_pos hq, table_get_cons,
        if_pos hq]
    · rw [List.cons_append, table_get_cons, if_neg hq, table_get_cons,
        if_neg hq]
      exact ih

/-! ## Claim C8: perform_put -/

/-- The lock `perform_put`/`perform_get` operates on: the table entry for
`key`, or the freshly created `Lock(self, mode)` when the entry is absent
(mirrors lines 185-187 / 218-220 of the source). -/
def target_lock (h : Handler) (tbl : Table) (key : String) (m : LockMode) :
    Lock :=
  match Table.get tbl key with
  | some l => l
  | none => Lock.init h.xid m

/-- Whether `perform_put` acquires the exclusive lock for `key`. -/
def put_granted (h : Handler) (tbl : Table) (key : String) : Bool :=
  (Lock.request_lock (target_lock h tbl key LockMode.ExclusiveLock) h.xid
    LockMode.ExclusiveLock).2

lemma perform_put_grant_case (h : Handler) (tbl : Table) (st : Store)
    (key value : String) (hg : put_granted h tbl key = true) :
    (perform_put h tbl st key value).handler =
      { h with
        undo_log := h.undo_log ++ [(key, Store.get st key)],
        acquired_locks := h.acquired_locks ++ [key] } ∧
    (perform_put h tbl st key value).store = Store.put st key (some value) ∧
    (perform_put h tbl st key value).ret = some "Success" := by
  unfold put_granted target_lock at hg
  unfold perform_put
  cases hget : Table.get tbl key with
  | some l0 =>
    rw [hget] at hg
    dsimp only at hg ⊢
    rw [if_pos hg]
    exact ⟨rfl, rfl, rfl⟩
  | none =>
    rw [hget] at hg
    dsimp only at hg ⊢
    rw [if_pos hg]
    exact ⟨rfl, rfl, rfl⟩

lemma perform_put_nongrant_case (h : Handler) (tbl : Table) (st : Store)
    (key value : String) (hg : put_granted h tbl key = false) :
    (perform_put h tbl st key value).handler =
      { h with
        desired_lock :=
          some (key, LockMode.ExclusiveLock, PendingOp.putOp key value) } ∧
    (perform_put h tbl st key value).store = st ∧
    (perform_put h tbl st key value).ret = none := by
  unfold put_granted target_lock at hg
  unfold perform_put
  cases hget : Table.get tbl key with
  | some l0 =>
    rw [hget] at hg
    dsimp only at hg ⊢
    rw [if_neg (by simp [hg])]
    exact ⟨rfl, rfl, rfl⟩
  | none =>
    rw [hget] at hg
    dsimp only at hg ⊢
    rw [if_neg (by simp [hg])]
    exact ⟨rfl, rfl, rfl⟩

lemma perform_put_table_has_key (h : Handler) (tbl : Table) (st : Store)
    (key value : String) :
    Table.get (perform_put h tbl st key value).table key ≠ none := by
  unfold perform_put
  cases hget : Table.get tbl key with
  | some l0 =>
    dsimp only
    split <;>
      · dsimp only
        rw [table_get_set_eq tbl key _ (by rw [hget]; simp)]
        simp
  | none =>
    dsimp only
    split <;>
      · dsimp only
        rw [table_get_set_eq _ key _
          (by rw [table_get_append_self tbl key _ hget]; simp)]
        simp

/-- C8: `perform_put` ensures a lock-table entry exists for the key and
requests Exclusive mode. On grant it appends `(key, prior stored value)` to
the undo log (absence recorded as `none`), records the key in the acquired
list, writes the value to the store and returns Success; on non-grant it
records `desired_lock = (key, Exclusive, retry-of-this-put)`, returns the
blocked signal `none`, and leaves the store and the undo log unchanged. -/
theorem C8_perform_put_spec (h : Handler) (tbl : Table) (st : Store)
    (key value : String) :
    (Table.get (perform_put h tbl st key value).table key ≠ none) ∧
    (put_granted h tbl key = true →
      ((perform_put h tbl st key value).handler =
        { h with
          undo_log := h.undo_log ++ [(key, Store.get st key)],
          acquired_locks := h.acquired_locks ++ [key] } ∧
      (perform_put h tbl st key value).store = Store.put st key (some value) ∧
      (perform_put h tbl st key value).ret = some "Success")) ∧
    (put_granted h tbl key = false →
      ((perform_put h tbl st key value).handler =
        { h with
          desired_lock :=
            some (key, LockMode.ExclusiveLock, PendingOp.putOp key value) } ∧
      (perform_put h tbl st key value).store = st ∧
      (perform_put h tbl st key value).ret = none ∧
      (perform_put h tbl st key value).handler.undo_log = h.undo_log)) :=
  ⟨perform_put_table_has_key h tbl st key value,
   fun hg => perform_put_grant_case h tbl st key value hg,
   fun hg =>
     ⟨(perform_put_nongrant_case h tbl st key value hg).1,
      (perform_put_nongrant_case h tbl st key value hg).2.1,
      (perform_put_nongrant_case h tbl st key value hg).2.2,
      by rw [(perform_put_nongrant_case h tbl st key value hg).1]⟩⟩

/-- Witness for C8: a put on an empty table is granted and returns
Success with the key recorded and the prior absence logged. -/
theorem C8_perform_put_spec_witness :
    put_granted (Handler.init 1) [] "a" = true ∧
    (perform_put (Handler.init 1) [] (fun _ => none) "a" "1").ret =
      some "Success" ∧
    (perform_put (Handler.init 1) [] (fun _ => none) "a" "1"
      ).handler.undo_log = [("a", none)] ∧
    (perform_put (Handler.init 1) [] (fun _ => none) "a" "1"
      ).handler.acquired_locks = ["a"] := by
  refine ⟨by decide, ?_, ?_, ?_⟩
  · exact ((C8_perform_put_spec (Handler.init 1) [] (fun _ => none) "a" "1"
      ).2.1 (by decide)).2.2
  · rw [((C8_perform_put_spec (Handler.init 1) [] (fun _ => none) "a" "1"
      ).2.1 (by decide)).1]
    rfl
  · rw [((C8_perform_put_spec (Handler.init 1) [] (fun _ => none) "a" "1"
      ).2.1 (by decide)).1]
    rfl

/-! ## Claim C2: abort restores the store and releases the locks -/

/-- Outcome of a transaction issuing a sequence of puts: `ok` records
whether every put returned Success. -/
structure RunResult where
  handler : Handler
  table : Table
  store : Store
  ok : Bool

/-- Issue the puts of `ps` in order through `perform_put`. -/
def runPuts (h : Handler) (tbl : Table) (st : Store) :
    List (String × String) → RunResult
  | [] => { handler := h, table := tbl, store := st, ok := true }
  | (k, v) :: rest =>
    let r := perform_put h tbl st k v
    let o := runPuts r.handler r.table r.store rest
    { handler := o.handler, table := o.table, store := o.store,
      ok := decide (r.ret = some "Success") && o.ok }

lemma store_put_put_restore (st : Store) (k : String) (x : Option String) :
    Store.put (Store.put st k x) k (st k) = st := by
  funext k2
  unfold Store.put
  by_cases h : k2 = k
  · rw [if_pos h, h]
  · rw [if_neg h, if_neg h]

lemma perform_put_replay (h : Handler) (tbl : Table) (st : Store)
    (k v : String) :
    replayUndo (perform_put h tbl st k v).handler.undo_log
      (perform_put h tbl st k v).store = replayUndo h.undo_log st := by
  by_cases hg : put_granted h tbl k = true
  · obtain ⟨hh, hs, _⟩ := perform_put_grant_case h tbl st k v hg
    have hlog : (perform_put h tbl st k v).handler.undo_log =
        h.undo_log ++ [(k, Store.get st k)] := by rw [hh]
    rw [hlog, hs]
    unfold replayUndo
    rw [List.foldr_append]
    show List.foldr _
      (Store.put (Store.put st k (some v)) k (Store.get st k)) h.undo_log =
      List.foldr _ st h.undo_log
    rw [show Store.get st k = st k from rfl, store_put_put_restore]
  · rw [Bool.not_eq_true] at hg
    obtain ⟨hh, hs, _⟩ := perform_put_nongrant_case h tbl st k v hg
    have hlog : (perform_put h tbl st k v).handler.undo_log = h.undo_log := by
      rw [hh]
    rw [hlog, hs]

lemma perform_put_xid (h : Handler) (tbl : Table) (st : Store)
    (k v : String) : (perform_put h tbl st k v).handler.xid = h.xid := by
  by_cases hg : put_granted h tbl k = true
  · rw [(perform_put_grant_case h tbl st k v hg).1]
  · rw [Bool.not_eq_true] at hg
    rw [(perform_put_nongrant_case h tbl st k v hg).1]

lemma runPuts_replay (ps : List (String × String)) :
    ∀ (h : Handler) (tbl : Table) (st : Store),
      replayUndo (runPuts h tbl st ps).handler.undo_log
        (runPuts h tbl st ps).store = replayUndo h.undo_log st := by
  induction ps with
  | nil => intro h tbl st; rfl
  | cons p rest ih =>
    intro h tbl st
    obtain ⟨k, v⟩ := p
    show replayUndo (runPuts (perform_put h tbl st k v).handler
        (perform_put h tbl st k v).table
        (perform_put h tbl st k v).store rest).handler.undo_log
      (runPuts (perform_put h tbl st k v).handler
        (perform_put h tbl st k v).table
        (perform_put h tbl st k v).store rest).store = replayUndo h.undo_log st
    rw [ih (perform_put h tbl st k v).handler (perform_put h tbl st k v).table
      (perform_put h tbl st k v).store]
    exact perform_put_replay h tbl st k v

/-- `x` holds the lock at most once and has no queued request on it. -/
def LockNoXid (x : Nat) (l : Lock) : Prop :=
  List.count x l.transactions ≤ 1 ∧ ∀ r ∈ l.request_queue, r.transaction ≠ x

/-- Every lock of the table satisfies `LockNoXid x`. -/
def TableNoXid (x : Nat) (tbl : Table) : Prop := ∀ p ∈ tbl, LockNoXid x p.2

lemma table_get_mem (tbl : Table) (k : String) (l : Lock)
    (h : Table.get tbl k = some l) : ∃ p ∈ tbl, p.2 = l := by
  unfold Table.get at h
  cases hf : List.find? (fun p => p.1 = k) tbl with
  | none => rw [hf] at h; cases h
  | some p =>
    rw [hf] at h
    simp only [Option.map, Option.some.injEq] at h
    exact ⟨p, List.mem_of_find?_eq_some hf, h⟩

lemma mem_table_set (tbl : Table) (k : String) (l : Lock)
    (p : String × Lock) (hp : p ∈ Table.set tbl k l) : p.2 = l ∨ p ∈ tbl := by
  unfold Table.set at hp
  obtain ⟨q, hq, he⟩ := List.mem_map.mp hp
  split_ifs at he with hc
  · rw [← he]
    exact Or.inl rfl
  · exact Or.inr (he ▸ hq)

lemma lock_init_noxid (x : Nat) (m : LockMode) :
    LockNoXid x (Lock.init x m) := by
  constructor
  · simp [Lock.init, List.count_singleton]
  · simp [Lock.init]

lemma request_lock_grant_noxid (l : Lock) (t : Nat) (m : LockMode)
    (hn : LockNoXid t l) (hg : (l.request_lock t m).2 = true) :
    LockNoXid t (l.request_lock t m).1 := by
  rw [request_lock_snd] at hg
  unfold Lock.request_lock
  rw [if_pos hg]
  obtain ⟨hc, hq⟩ := hn
  constructor
  · by_cases hmem : l.transactions.contains t = true
    · rw [if_pos hmem]
      exact hc
    · have hnmem : t ∉ l.transactions := by
        intro hm
        exact hmem (List.elem_iff.mpr hm)
      rw [if_neg hmem]
      rw [List.count_append]
      rw [List.count_eq_zero.mpr hnmem]
      simp
  · exact hq

lemma release_lock_noxid (x : Nat) (l : Lock) (hn : LockNoXid x l) :
    LockNoXid x (l.release_lock x) ∧ x ∉ (l.release_lock x).transactions := by
  obtain ⟨hc, hq⟩ := hn
  have herase : x ∉ l.transactions.erase x := by
    intro hmem
    have he := List.count_erase_self x l.transactions
    have hpos := List.count_pos_iff.mpr hmem
    rw [he] at hpos
    omega
  have hcle : List.count x (l.transactions.erase x) ≤ 1 := by
    rw [List.count_erase_self]
    omega
  unfold Lock.release_lock
  dsimp only
  split_ifs with h0
  · unfold Lock.grant_request
    dsimp only
    cases hqq : l.request_queue with
    | nil =>
      dsimp only
      refine ⟨⟨hcle, ?_⟩, herase⟩
      intro r hr
      cases hr
    | cons r rs =>
      dsimp only
      have hrx : r.transaction ≠ x := hq r (by rw [hqq]; simp)
      refine ⟨⟨?_, ?_⟩, ?_⟩
      · rw [List.count_append]
        have hz : x ∉ [r.transaction] := by
          intro hm
          simp at hm
          exact hrx hm.symm
        rw [List.count_eq_zero.mpr hz]
        omega
      · intro r2 hr2
        exact hq r2 (by rw [hqq]; exact List.mem_cons_of_mem r hr2)
      · intro hmem
        rcases List.mem_append.mp hmem with h | h
        · exact herase h
        · simp at h
          exact hrx h.symm
  · exact ⟨⟨hcle, hq⟩, herase⟩

lemma releaseStep_noxid (x : Nat) (tbl : Table) (k : String)
    (hT : TableNoXid x tbl) :
    TableNoXid x (releaseStep x tbl k) ∧
    (∀ k2, (∀ l, Table.get tbl k2 = some l → x ∉ l.transactions) →
      ∀ l, Table.get (releaseStep x tbl k) k2 = some l → x ∉ l.transactions) ∧
    (∀ l, Table.get (releaseStep x tbl k) k = some l → x ∉ l.transactions) := by
  unfold releaseStep
  cases hget : Table.get tbl k with
  | none => exact ⟨hT, fun k2 hk => hk, fun l hl => by rw [hget] at hl; cases hl⟩
  | some l0 =>
    dsimp only
    have hl0 : LockNoXid x l0 := by
      obtain ⟨p, hp, he⟩ := table_get_mem tbl k l0 hget
      exact he ▸ hT p hp
    obtain ⟨hn2, hout⟩ := release_lock_noxid x l0 hl0
    have hkey : ∀ l, Table.get (Table.set tbl k (l0.release_lock x)) k =
        some l → x ∉ l.transactions := by
      intro l hl
      rw [table_get_set_eq tbl k _ (by rw [hget]; simp)] at hl
      cases hl
      exact hout
    refine ⟨?_, ?_, hkey⟩
    · intro p hp
      rcases mem_table_set tbl k (l0.release_lock x) p hp with he | hmem
      · rw [he]
        exact hn2
      · exact hT p hmem
    · intro k2 hk l hl
      by_cases hkk : k2 = k
      · rw [hkk] at hl
        exact hkey l hl
      · rw [table_get_set_ne tbl k k2 _ hkk] at hl
        exact hk l hl

lemma release_fold_noxid (x : Nat) (keys : List String) :
    ∀ tbl, TableNoXid x tbl →
      TableNoXid x (List.foldl (releaseStep x) tbl keys) ∧
      (∀ k2, (∀ l, Table.get tbl k2 = some l → x ∉ l.transactions) →
        ∀ l, Table.get (List.foldl (releaseStep x) tbl keys) k2 = some l →
          x ∉ l.transactions) ∧
      (∀ k ∈ keys, ∀ l,
        Table.get (List.foldl (releaseStep x) tbl keys) k = some l →
          x ∉ l.transactions) := by
  induction keys with
  | nil =>
    intro tbl hT
    exact ⟨hT, fun k2 hk => hk, by simp⟩
  | cons k rest ih =>
    intro tbl hT
    obtain ⟨hs1, hs2, hs3⟩ := releaseStep_noxid x tbl k hT
    obtain ⟨hi1, hi2, hi3⟩ := ih (releaseStep x tbl k) hs1
    rw [List.foldl_cons]
    refine ⟨hi1, ?_, ?_⟩
    · intro k2 hk
      exact hi2 k2 (hs2 k2 hk)
    · intro k2 hk2
      rcases List.mem_cons.mp hk2 with he | hmem
      · rw [he]
        exact hi2 k hs3
      · exact hi3 k2 hmem

lemma perform_put_noxid (h : Handler) (tbl : Table) (st : Store)
    (k v : String) (hT : TableNoXid h.xid tbl)
    (hret : (perform_put h tbl st k v).ret = some "Success") :
    TableNoXid h.xid (perform_put h tbl st k v).table := by
  have hg : put_granted h tbl k = true := by
    by_cases hg : put_granted h tbl k = true
    · exact hg
    · rw [Bool.not_eq_true] at hg
      rw [(perform_put_nongrant_case h tbl st k v hg).2.2] at hret
      cases hret
  unfold put_granted target_lock at hg
  unfold perform_put
  cases hget : Table.get tbl k with
  | some l0 =>
    rw [hget] at hg
    dsimp only at hg ⊢
    rw [if_pos hg]
    dsimp only
    intro p hp
    rcases mem_table_set tbl k _ p hp with he | hmem
    · rw [he]
      have hl0 : LockNoXid h.xid l0 := by
        obtain ⟨q, hq, he2⟩ := table_get_mem tbl k l0 hget
        exact he2 ▸ hT q hq
      exact request_lock_grant_noxid l0 h.xid LockMode.ExclusiveLock hl0
        (by rw [request_lock_snd]; rw [request_lock_snd] at hg; exact hg)
    · exact hT p hmem
  | none =>
    rw [hget] at hg
    dsimp only at hg ⊢
    rw [if_pos hg]
    dsimp only
    intro p hp
    have happ : TableNoXid h.xid
        (tbl ++ [(k, Lock.init h.xid LockMode.ExclusiveLock)]) := by
      intro q hq
      rcases List.mem_append.mp hq with hmem | hone
      · exact hT q hmem
      · simp at hone
        rw [hone]
        exact lock_init_noxid h.xid LockMode.ExclusiveLock
    rcases mem_table_set _ k _ p hp with he | hmem
    · rw [he]
      exact request_lock_grant_noxid _ h.xid LockMode.ExclusiveLock
        (lock_init_noxid h.xid LockMode.ExclusiveLock)
        (by rw [request_lock_snd]; rw [request_lock_snd] at hg; exact hg)
    · exact happ p hmem

lemma runPuts_invariant (ps : List (String × String)) :
    ∀ (h : Handler) (tbl : Table) (st : Store),
      TableNoXid h.xid tbl → (runPuts h tbl st ps).ok = true →
      TableNoXid h.xid (runPuts h tbl st ps).table ∧
      (runPuts h tbl st ps).handler.xid = h.xid := by
  induction ps with
  | nil =>
    intro h tbl st hT _
    exact ⟨hT, rfl⟩
  | cons p rest ih =>
    intro h tbl st hT hok
    obtain ⟨k, v⟩ := p
    have hok2 : (decide ((perform_put h tbl st k v).ret = some "Success") &&
        (runPuts (perform_put h tbl st k v).handler
          (perform_put h tbl st k v).table
          (perform_put h tbl st k v).store rest).ok) = true := hok
    rw [Bool.and_eq_true] at hok2
    have hret := of_decide_eq_true hok2.1
    have hT2 : TableNoXid (perform_put h tbl st k v).handler.xid
        (perform_put h tbl st k v).table := by
      rw [perform_put_xid]
      exact perform_put_noxid h tbl st k v hT hret
    obtain ⟨hT3, hxid⟩ := ih (perform_put h tbl st k v).handler
      (perform_put h tbl st k v).table (perform_put h tbl st k v).store
      hT2 hok2.2
    constructor
    · show TableNoXid h.xid (runPuts (perform_put h tbl st k v).handler
        (perform_put h tbl st k v).table
        (perform_put h tbl st k v).store rest).table
      rw [← perform_put_xid h tbl st k v]
      exact hT3
    · show (runPuts (perform_put h tbl st k v).handler
        (perform_put h tbl st k v).table
        (perform_put h tbl st k v).store rest).handler.xid = h.xid
      rw [hxid, perform_put_xid]

/-- C2: a transaction that starts fresh (`Handler.init xid`, no holdings
or queued requests for `xid` in the table) performs any sequence of
successful puts and then aborts. The abort replays the undo log from the
end, so every key of the store — in particular each written key — holds its
pre-transaction value again (absence included); the acquired locks are all
released (the acquired list is cleared and `xid` holds none of the acquired
keys' locks), and the returned message matches the abort mode. -/
theorem C2_abort_restores_prior_values (xid : Nat) (tbl : Table) (st : Store)
    (ps : List (String × String)) (mode : Nat)
    (hT : TableNoXid xid tbl)
    (hok : (runPuts (Handler.init xid) tbl st ps).ok = true) :
    (∀ k, (abort (runPuts (Handler.init xid) tbl st ps).handler
        (runPuts (Handler.init xid) tbl st ps).table
        (runPuts (Handler.init xid) tbl st ps).store mode).2.2.1 k = st k) ∧
    (abort (runPuts (Handler.init xid) tbl st ps).handler
        (runPuts (Handler.init xid) tbl st ps).table
        (runPuts (Handler.init xid) tbl st ps).store mode
      ).1.acquired_locks = [] ∧
    (abort (runPuts (Handler.init xid) tbl st ps).handler
        (runPuts (Handler.init xid) tbl st ps).table
        (runPuts (Handler.init xid) tbl st ps).store mode).1.undo_log = [] ∧
    (mode = USER →
      (abort (runPuts (Handler.init xid) tbl st ps).handler
        (runPuts (Handler.init xid) tbl st ps).table
        (runPuts (Handler.init xid) tbl st ps).store mode).2.2.2 =
          "User Abort") ∧
    (mode = DEADLOCK →
      (abort (runPuts (Handler.init xid) tbl st ps).handler
        (runPuts (Handler.init xid) tbl st ps).table
        (runPuts (Handler.init xid) tbl st ps).store mode).2.2.2 =
          "Deadlock Abort") ∧
    (∀ k ∈ (runPuts (Handler.init xid) tbl st ps).handler.acquired_locks,
      ∀ l, Table.get (abort (runPuts (Handler.init xid) tbl st ps).handler
        (runPuts (Handler.init xid) tbl st ps).table
        (runPuts (Handler.init xid) tbl st ps).store mode).2.1 k = some l →
          xid ∉ l.transactions) := by
  obtain ⟨hTf, hxid⟩ := runPuts_invariant ps (Handler.init xid) tbl st hT hok
  refine ⟨?_, rfl, rfl, ?_, ?_, ?_⟩
  · intro k
    show replayUndo (runPuts (Handler.init xid) tbl st ps).handler.undo_log
      (runPuts (Handler.init xid) tbl st ps).store k = st k
    rw [runPuts_replay ps (Handler.init xid) tbl st]
    rfl
  · intro hm
    show (if mode = USER then "User Abort" else "Deadlock Abort") = _
    rw [if_pos hm]
  · intro hm
    show (if mode = USER then "User Abort" else "Deadlock Abort") = _
    rw [if_neg (by rw [hm]; decide)]
  · intro k hk l hl
    have hfold : (abort (runPuts (Handler.init xid) tbl st ps).handler
        (runPuts (Handler.init xid) tbl st ps).table
        (runPuts (Handler.init xid) tbl st ps).store mode).2.1 =
      List.foldl (releaseStep (runPuts (Handler.init xid) tbl st ps).handler.xid)
        (runPuts (Handler.init xid) tbl st ps).table
        (runPuts (Handler.init xid) tbl st ps).handler.acquired_locks := rfl
    rw [hfold, hxid] at hl
    exact (release_fold_noxid xid
      (runPuts (Handler.init xid) tbl st ps).handler.acquired_locks
      (runPuts (Handler.init xid) tbl st ps).table hTf).2.2 k hk l hl

/-- Witness for C2: transaction 1 creates "a", overwrites it, writes "b",
then user-aborts; the store returns to empty at those keys. -/
theorem C2_abort_restores_prior_values_witness :
    TableNoXid 1 [] ∧
    (runPuts (Handler.init 1) [] (fun _ => none)
      [("a", "1"), ("b", "2"), ("a", "3")]).ok = true ∧
    (abort (runPuts (Handler.init 1) [] (fun _ => none)
        [("a", "1"), ("b", "2"), ("a", "3")]).handler
      (runPuts (Handler.init 1) [] (fun _ => none)
        [("a", "1"), ("b", "2"), ("a", "3")]).table
      (runPuts (Handler.init 1) [] (fun _ => none)
        [("a", "1"), ("b", "2"), ("a", "3")]).store USER).2.2.1 "a" = none ∧
    (abort (runPuts (Handler.init 1) [] (fun _ => none)
        [("a", "1"), ("b", "2"), ("a", "3")]).handler
      (runPuts (Handler.init 1) [] (fun _ => none)
        [("a", "1"), ("b", "2"), ("a", "3")]).table
      (runPuts (Handler.init 1) [] (fun _ => none)
        [("a", "1"), ("b", "2"), ("a", "3")]).store USER).2.2.2 =
        "User Abort" := by
  have hT : TableNoXid 1 ([] : Table) := by
    intro p hp
    cases hp
  have hok : (runPuts (Handler.init 1) [] (fun _ => none)
      [("a", "1"), ("b", "2"), ("a", "3")]).ok = true := by decide
  have hmain := C2_abort_restores_prior_values 1 [] (fun _ => none)
    [("a", "1"), ("b", "2"), ("a", "3")] USER hT hok
  exact ⟨hT, hok, hmain.1 "a", hmain.2.2.2.1 rfl⟩

/-! ## Claim C4: what detect_deadlocks reports -/

/-- The wait-for relation as the spec states it: `a` waits for `b` iff `a`
is blocked on some key (its recorded desired lock), `b` holds that key's
lock, and `a`'s request is not grantable there (so the holders are what
prevents the grant). -/
def waitsFor (hs : List Handler) (tbl : Table) (a b : Nat) : Prop :=
  ∃ (ha : Handler) (k : String) (m : LockMode) (op : PendingOp) (lk : Lock),
    findHandler hs a = some ha ∧
    ha.desired_lock = some (k, m, op) ∧
    Table.get tbl k = some lk ∧
    b ∈ lk.transactions ∧
    Lock.can_acquire_lock lk a m = false

/-- The state of the C4 counterexample: transaction 2 was blocked on key
"a", another transaction released the lock and `release_lock` granted 2 the
exclusive lock from the queue; 2 has not yet polled `check_lock`, so its
`desired_lock` is still recorded. -/
def h2C4 : Handler :=
  { acquired_locks := [],
    desired_lock := some ("a", LockMode.ExclusiveLock, PendingOp.putOp "a" "1"),
    xid := 2, undo_log := [] }

def lkC4 : Lock :=
  { transactions := [2], mode := some LockMode.ExclusiveLock,
    request_queue := [] }

def tblC4 : Table := [("a", lkC4)]

/-- C4 counterexample: in this state the wait-for relation is empty (2
already holds the lock it desires, so nothing prevents its grant and nobody
waits), yet `detect_deadlocks` does not return `None` — it reports 2. -/
theorem C4_counterexample :
    (∀ a b, ¬ waitsFor [h2C4] tblC4 a b) ∧
    detect_deadlocks [h2C4] tblC4 = some 2 := by
  constructor
  · intro a b hw
    obtain ⟨ha, k, m, op, lk, hfind, hdes, hget, hmem, hcan⟩ := hw
    by_cases ha2 : a = 2
    · subst ha2
      have he : findHandler [h2C4] 2 = some h2C4 := rfl
      rw [he] at hfind
      cases hfind
      have hd : h2C4.desired_lock =
          some ("a", LockMode.ExclusiveLock, PendingOp.putOp "a" "1") := rfl
      rw [hd] at hdes
      cases hdes
      have hg : Table.get tblC4 "a" = some lkC4 := rfl
      rw [hg] at hget
      cases hget
      exact absurd hcan (by decide)
    · have he : findHandler [h2C4] a = none := by
        unfold findHandler
        rw [List.find?_cons]
        have hx : (h2C4.xid = a) = False := by
          simp only [eq_iff_iff, iff_false]
          intro h2a
          exact ha2 (h2a ▸ rfl)
        simp [hx]
      rw [he] at hfind
      cases hfind
  · rfl

/-- The two-hop chain of the source's detector, stated declaratively: the
first holder `t` of `key`'s lock desires `dk`, and the first holder `ot` of
`dk`'s lock desires `key` back. -/
def ChainCycle (hs : List Handler) (tbl : Table) (key : String) (lock : Lock)
    (t ot : Handler) : Prop :=
  ∃ (x : Nat) (dk : String) (m2 : LockMode) (op2 : PendingOp) (ol : Lock)
    (ox : Nat) (m3 : LockMode) (op3 : PendingOp),
    lock.first_current_transaction = some x ∧
    findHandler hs x = some t ∧
    t.desired_lock = some (dk, m2, op2) ∧
    Table.get tbl dk = some ol ∧
    ol.first_current_transaction = some ox ∧
    findHandler hs ox = some ot ∧
    ot.desired_lock = some (key, m3, op3)

lemma gdkt_some (hs : List Handler) (l : Lock) (dk : String) (t : Handler)
    (h : get_desired_key_tranc hs l = some (dk, t)) :
    ∃ (x : Nat) (m : LockMode) (op : PendingOp),
      l.first_current_transaction = some x ∧
      findHandler hs x = some t ∧
      t.desired_lock = some (dk, m, op) := by
  unfold get_desired_key_tranc at h
  cases hx : l.first_current_transaction with
  | none => rw [hx] at h; exact Option.noConfusion h
  | some x =>
    rw [hx] at h
    dsimp only at h
    cases hf : findHandler hs x with
    | none => rw [hf] at h; exact Option.noConfusion h
    | some t0 =>
      rw [hf] at h
      dsimp only at h
      cases hd : t0.desired_lock with
      | none => rw [hd] at h; exact Option.noConfusion h
      | some d =>
        rw [hd] at h
        dsimp only at h
        obtain ⟨dk0, m0, op0⟩ := d
        simp only [Option.some.injEq, Prod.mk.injEq] at h
        refine ⟨x, m0, op0, rfl, ?_, ?_⟩
        · rw [hf, h.2]
        · rw [← h.2, hd, h.1]

lemma gdkt_intro (hs : List Handler) (l : Lock) (dk : String) (t : Handler)
    (x : Nat) (m : LockMode) (op : PendingOp)
    (h1 : l.first_current_transaction = some x)
    (h2 : findHandler hs x = some t)
    (h3 : t.desired_lock = some (dk, m, op)) :
    get_desired_key_tranc hs l = some (dk, t) := by
  unfold get_desired_key_tranc
  rw [h1]
  dsimp only
  rw [h2]
  dsimp only
  rw [h3]

lemma detectAt_iff (hs : List Handler) (tbl : Table) (key : String)
    (lock : Lock) (t ot : Handler) :
    detectAt hs tbl key lock = some (t, ot) ↔
      ChainCycle hs tbl key lock t ot := by
  constructor
  · intro h
    unfold detectAt at h
    cases hg1 : get_desired_key_tranc hs lock with
    | none => rw [hg1] at h; exact Option.noConfusion h
    | some p =>
      rw [hg1] at h
      obtain ⟨dk, t0⟩ := p
      dsimp only at h
      cases hol : Table.get tbl dk with
      | none => rw [hol] at h; exact Option.noConfusion h
      | some ol0 =>
        rw [hol] at h
        dsimp only at h
        cases hg2 : get_desired_key_tranc hs ol0 with
        | none => rw [hg2] at h; exact Option.noConfusion h
        | some q =>
          rw [hg2] at h
          obtain ⟨odk, ot0⟩ := q
          dsimp only at h
          split_ifs at h with hk
          · simp only [Option.some.injEq, Prod.mk.injEq] at h
            obtain ⟨x, m2, op2, hx, hft, hdt⟩ :=
              gdkt_some hs lock dk t0 hg1
            obtain ⟨ox, m3, op3, hox, hfo, hdo⟩ :=
              gdkt_some hs ol0 odk ot0 hg2
            refine ⟨x, dk, m2, op2, ol0, ox, m3, op3, hx, ?_, ?_, hol,
              hox, ?_, ?_⟩
            · rw [hft, h.1]
            · rw [← h.1]; exact hdt
            · rw [hfo, h.2]
            · rw [← h.2, hdo, hk]
  · intro hc
    obtain ⟨x, dk, m2, op2, ol, ox, m3, op3, h1, h2, h3, h4, h5, h6, h7⟩ := hc
    unfold detectAt
    rw [gdkt_intro hs lock dk t x m2 op2 h1 h2 h3]
    dsimp only
    rw [h4]
    dsimp only
    rw [gdkt_intro hs ol key ot ox m3 op3 h5 h6 h7]
    dsimp only
    rw [if_pos rfl]

lemma detectAt_none_iff (hs : List Handler) (tbl : Table) (key : String)
    (lock : Lock) :
    detectAt hs tbl key lock = none ↔
      ∀ t ot, ¬ ChainCycle hs tbl key lock t ot := by
  constructor
  · intro h t ot hc
    rw [(detectAt_iff hs tbl key lock t ot).mpr hc] at h
    cases h
  · intro h
    cases hd : detectAt hs tbl key lock with
    | none => rfl
    | some pr =>
      obtain ⟨t, ot⟩ := pr
      exact absurd ((detectAt_iff hs tbl key lock t ot).mp hd) (h t ot)

lemma detectLoop_none_iff (hs : List Handler) (tbl : Table)
    (entries : List (String × Lock)) :
    detectLoop hs tbl entries = none ↔
      ∀ p ∈ entries, detectAt hs tbl p.1 p.2 = none := by
  induction entries with
  | nil => simp [detectLoop]
  | cons p rest ih =>
    obtain ⟨k, l⟩ := p
    unfold detectLoop
    cases hd : detectAt hs tbl k l with
    | none =>
      simp only []
      constructor
      · intro h q hq
        rcases List.mem_cons.mp hq with he | hmem
        · rw [he]
          exact hd
        · exact (ih.mp h) q hmem
      · intro h
        exact ih.mpr (fun q hq => h q (List.mem_cons_of_mem _ hq))
    | some pr =>
      simp only []
      constructor
      · intro h
        cases h
      · intro h
        have := h (k, l) (List.mem_cons_self _ _)
        rw [hd] at this
        cases this

lemma detectLoop_some (hs : List Handler) (tbl : Table) (x : Nat) :
    ∀ entries, detectLoop hs tbl entries = some x →
      ∃ p ∈ entries, ∃ t ot, detectAt hs tbl p.1 p.2 = some (t, ot) ∧
        x = min t.xid ot.xid := by
  intro entries
  induction entries with
  | nil => intro h; cases h
  | cons p rest ih =>
    obtain ⟨k, l⟩ := p
    intro h
    unfold detectLoop at h
    cases hd : detectAt hs tbl k l with
    | none =>
      rw [hd] at h
      obtain ⟨q, hq, t, ot, hqa, hx⟩ := ih h
      exact ⟨q, List.mem_cons_of_mem _ hq, t, ot, hqa, hx⟩
    | some pr =>
      rw [hd] at h
      obtain ⟨t, ot⟩ := pr
      simp only [Option.some.injEq] at h
      exact ⟨(k, l), List.mem_cons_self _ _, t, ot, hd, h.symm⟩

/-- C4 amended: `detect_deadlocks` returns `None` exactly when no lock-table
entry closes the detector's two-hop first-holder chain (the spec defines a
cycle by this chain closing), and any reported xid is the minimum of the two
transactions of a closing chain. The claim's stronger reading — `None`
whenever the holder-preventing wait-for relation is acyclic — fails
(`C4_counterexample`). -/
theorem C4_amended_detect_two_hop (hs : List Handler) (tbl : Table) :
    (detect_deadlocks hs tbl = none ↔
      ∀ p ∈ tbl, ∀ t ot, ¬ ChainCycle hs tbl p.1 p.2 t ot) ∧
    (∀ x, detect_deadlocks hs tbl = some x →
      ∃ p ∈ tbl, ∃ t ot, ChainCycle hs tbl p.1 p.2 t ot ∧
        x = min t.xid ot.xid) := by
  constructor
  · rw [show detect_deadlocks hs tbl = detectLoop hs tbl tbl from rfl]
    rw [detectLoop_none_iff hs tbl tbl]
    constructor
    · intro h p hp t ot
      exact (detectAt_none_iff hs tbl p.1 p.2).mp (h p hp) t ot
    · intro h p hp
      exact (detectAt_none_iff hs tbl p.1 p.2).mpr (h p hp)
  · intro x hx
    obtain ⟨p, hp, t, ot, hd, he⟩ := detectLoop_some hs tbl x tbl hx
    exact ⟨p, hp, t, ot, (detectAt_iff hs tbl p.1 p.2 t ot).mp hd, he⟩

/-! ## Claim C9: detect_deadlocks is deterministic -/

/-- What `detect_deadlocks` can observe of one lock: the first holder's xid
together with its desired key, when both exist. -/
def lockObs (hs : List Handler) (l : Lock) : Option (String × Nat) :=
  (get_desired_key_tranc hs l).map (fun q => (q.1, q.2.xid))

/-- The detector-relevant projection of a whole lock-table state. -/
def detectObs (hs : List Handler) (tbl : Table) :
    List (String × Option (String × Nat)) :=
  tbl.map (fun p => (p.1, lockObs hs p.2))

def obsGet (o : List (String × Option (String × Nat))) (k : String) :
    Option (Option (String × Nat)) :=
  (List.find? (fun p => p.1 = k) o).map (fun p => p.2)

def obsAt (o : List (String × Option (String × Nat))) (key : String)
    (e : Option (String × Nat)) : Option Nat :=
  match e with
  | none => none
  | some (dk, x1) =>
    match obsGet o dk with
    | none => none
    | some none => none
    | some (some (odk, x2)) => if odk = key then some (min x1 x2) else none

def obsLoop (o : List (String × Option (String × Nat))) :
    List (String × Option (String × Nat)) → Option Nat
  | [] => none
  | (k, e) :: rest =>
    match obsAt o k e with
    | some x => some x
    | none => obsLoop o rest

def obsDetect (o : List (String × Option (String × Nat))) : Option Nat :=
  obsLoop o o

lemma obsGet_detectObs (hs : List Handler) (tbl : Table) (k : String) :
    obsGet (detectObs hs tbl) k = (Table.get tbl k).map (lockObs hs) := by
  unfold obsGet detectObs Table.get
  rw [List.find?_map]
  rw [Option.map_map, Option.map_map]
  congr 1

lemma obsAt_detectAt (hs : List Handler) (tbl : Table) (key : String)
    (lock : Lock) :
    obsAt (detectObs hs tbl) key (lockObs hs lock) =
      (detectAt hs tbl key lock).map (fun pr => min pr.1.xid pr.2.xid) := by
  unfold obsAt detectAt lockObs
  cases hg1 : get_desired_key_tranc hs lock with
  | none => rfl
  | some p =>
    obtain ⟨dk, t⟩ := p
    dsimp only [Option.map]
    rw [obsGet_detectObs]
    cases hol : Table.get tbl dk with
    | none => rfl
    | some ol =>
      dsimp only [Option.map]
      unfold lockObs
      cases hg2 : get_desired_key_tranc hs ol with
      | none => rfl
      | some q =>
        obtain ⟨odk, ot⟩ := q
        dsimp only [Option.map]
        split_ifs with hk
        · rfl
        · rfl

lemma obsLoop_detectLoop (hs : List Handler) (tbl : Table) :
    ∀ entries,
      obsLoop (detectObs hs tbl)
        (entries.map (fun p => (p.1, lockObs hs p.2))) =
      detectLoop hs tbl entries := by
  intro entries
  induction entries with
  | nil => rfl
  | cons p rest ih =>
    obtain ⟨k, l⟩ := p
    rw [List.map_cons]
    unfold obsLoop detectLoop
    rw [obsAt_detectAt]
    cases hd : detectAt hs tbl k l with
    | none => exact ih
    | some pr => rfl

lemma detect_eq_obs (hs : List Handler) (tbl : Table) :
    obsDetect (detectObs hs tbl) = detect_deadlocks hs tbl := by
  unfold obsDetect detect_deadlocks
  exact obsLoop_detectLoop hs tbl tbl

/-- C9: `detect_deadlocks` depends only on the detector-relevant
observation of the state (per key, in table order: the first holder's xid
and desired key); two states with equal observations — in particular the
same state read twice — yield the same verdict, so the victim choice is
deterministic. -/
theorem C9_detect_deadlocks_deterministic (hs1 hs2 : List Handler)
    (tbl1 tbl2 : Table) (h : detectObs hs1 tbl1 = detectObs hs2 tbl2) :
    detect_deadlocks hs1 tbl1 = detect_deadlocks hs2 tbl2 := by
  rw [← detect_eq_obs hs1 tbl1, ← detect_eq_obs hs2 tbl2, h]

/-- Witness for C9: two states that differ in queues, modes, undo logs and
acquired lists but agree on the observation get the same verdict. -/
theorem C9_detect_deadlocks_deterministic_witness :
    detectObs
        [{ acquired_locks := ["a"],
           desired_lock := some ("b", LockMode.SharedLock, PendingOp.getOp "b"),
           xid := 3, undo_log := [] }]
        [("a", { transactions := [3], mode := some LockMode.ExclusiveLock,
                 request_queue := [] })] =
      detectObs
        [{ acquired_locks := [],
           desired_lock :=
             some ("b", LockMode.ExclusiveLock, PendingOp.putOp "b" "9"),
           xid := 3, undo_log := [("z", none)] }]
        [("a", { transactions := [3, 4], mode := some LockMode.SharedLock,
                 request_queue :=
                   [{ transaction := 9, mode := LockMode.SharedLock }] })] ∧
    detect_deadlocks
        [{ acquired_locks := ["a"],
           desired_lock := some ("b", LockMode.SharedLock, PendingOp.getOp "b"),
           xid := 3, undo_log := [] }]
        [("a", { transactions := [3], mode := some LockMode.ExclusiveLock,
                 request_queue := [] })] =
      detect_deadlocks
        [{ acquired_locks := [],
           desired_lock :=
             some ("b", LockMode.ExclusiveLock, PendingOp.putOp "b" "9"),
           xid := 3, undo_log := [("z", none)] }]
        [("a", { transactions := [3, 4], mode := some LockMode.SharedLock,
                 request_queue :=
                   [{ transaction := 9, mode := LockMode.SharedLock }] })] :=
  ⟨by decide,
   C9_detect_deadlocks_deterministic _ _ _ _ (by decide)⟩

/-! ## Claim C5: check_lock -/

def hC5 : Handler :=
  { acquired_locks := [],
    desired_lock := some ("a", LockMode.SharedLock, PendingOp.getOp "a"),
    xid := 1, undo_log := [] }

def lkC5 : Lock :=
  { transactions := [1], mode := some LockMode.SharedLock, request_queue := [] }

def tblC5 : Table := [("a", lkC5)]

def stC5 : Store := fun k => if k = "a" then some "" else none

/-- C5 counterexample: the blocked transaction holds the desired lock, the
retry (a get) yields the non-absent stored value `""` and `check_lock`
returns it — but, because the source tests the result with Python
truthiness (`if v:`) and the empty string is falsy, `desired_lock` is NOT
cleared, contradicting the claim that every non-absent result clears it. -/
theorem C5_counterexample :
    (check_lock hC5 tblC5 stC5).ret = some "" ∧
    (check_lock hC5 tblC5 stC5).ret ≠ none ∧
    (check_lock hC5 tblC5 stC5).handler.desired_lock ≠ none := by
  refine ⟨?_, ?_, ?_⟩ <;> decide

/-- C5 amended: `check_lock` is a no-op returning `none` when no lock is
desired; when blocked with the lock held in exactly the desired mode it
re-runs the stored operation and returns that result, clearing
`desired_lock` only when the result is truthy (non-absent AND non-empty);
when the hold test fails it returns `none` leaving the state unchanged. -/
theorem C5_amended_check_lock (h : Handler) (tbl : Table) (st : Store) :
    (h.desired_lock = none →
      check_lock h tbl st =
        { handler := h, table := tbl, store := st, ret := none }) ∧
    (∀ key m op lock, h.desired_lock = some (key, m, op) →
      Table.get tbl key = some lock →
      ((Lock.hold_lock lock h.xid m = false →
        check_lock h tbl st =
          { handler := h, table := tbl, store := st, ret := none }) ∧
      (Lock.hold_lock lock h.xid m = true →
        ((truthy (runOp op h tbl st).ret = true →
          check_lock h tbl st =
            { runOp op h tbl st with
              handler :=
                { (runOp op h tbl st).handler with desired_lock := none } }) ∧
        (truthy (runOp op h tbl st).ret = false →
          check_lock h tbl st = runOp op h tbl st))))) := by
  constructor
  · intro hd
    unfold check_lock
    rw [hd]
  · intro key m op lock hd hget
    unfold check_lock
    rw [hd]
    dsimp only
    rw [hget]
    dsimp only
    constructor
    · intro hhold
      rw [hhold]
      simp only [Bool.false_eq_true, if_false]
    · intro hhold
      rw [if_pos hhold]
      constructor
      · intro ht
        rw [if_pos ht]
      · intro ht
        rw [ht]
        simp only [Bool.false_eq_true, if_false]

/-- Witness for C5's amended theorem: same state as the counterexample but
with a non-empty stored value; the retry result is truthy and the desired
lock is cleared. -/
theorem C5_amended_check_lock_witness :
    hC5.desired_lock =
      some ("a", LockMode.SharedLock, PendingOp.getOp "a") ∧
    Table.get tblC5 "a" = some lkC5 ∧
    Lock.hold_lock lkC5 hC5.xid LockMode.SharedLock = true ∧
    truthy (runOp (PendingOp.getOp "a") hC5 tblC5
      (fun k => if k = "a" then some "7" else none)).ret = true ∧
    check_lock hC5 tblC5 (fun k => if k = "a" then some "7" else none) =
      { runOp (PendingOp.getOp "a") hC5 tblC5
          (fun k => if k = "a" then some "7" else none) with
        handler :=
          { (runOp (PendingOp.getOp "a") hC5 tblC5
              (fun k => if k = "a" then some "7" else none)).handler with
            desired_lock := none } } :=
  ⟨by decide, by decide, by decide, by decide,
   (((C5_amended_check_lock hC5 tblC5
        (fun k => if k = "a" then some "7" else none)).2 "a"
      LockMode.SharedLock (PendingOp.getOp "a") lkC5 (by decide)
      (by decide)).2 (by decide)).1 (by decide)⟩

/-! ## Claim C10: release touches only holder sets, never wait queues -/

/-- Lock-level hold/wait exclusion for transaction `x`, as maintained by the
handler protocol: an empty holder set has an empty queue, and a transaction
never both holds and waits on the same key. -/
def HoldWaitOk (x : Nat) (l : Lock) : Prop :=
  (l.transactions = [] → l.request_queue = []) ∧
  (x ∈ l.transactions → ∀ r ∈ l.request_queue, r.transaction ≠ x)

def TableHoldWaitOk (x : Nat) (tbl : Table) : Prop :=
  ∀ p ∈ tbl, HoldWaitOk x p.2

instance (x : Nat) (l : Lock) : Decidable (HoldWaitOk x l) := by
  unfold HoldWaitOk
  infer_instance

instance (x : Nat) (tbl : Table) : Decidable (TableHoldWaitOk x tbl) := by
  unfold TableHoldWaitOk
  infer_instance

lemma release_lock_own (x : Nat) (l : Lock) (hw : HoldWaitOk x l) :
    HoldWaitOk x (l.release_lock x) ∧
    (∀ r ∈ l.request_queue, r.transaction = x →
      r ∈ (l.release_lock x).request_queue) := by
  obtain ⟨hw1, hw2⟩ := hw
  unfold Lock.release_lock
  dsimp only
  split_ifs with h0
  · have he : l.transactions.erase x = [] := List.length_eq_zero.mp h0
    unfold Lock.grant_request
    dsimp only
    cases hq : l.request_queue with
    | nil =>
      dsimp only
      refine ⟨⟨fun _ => rfl, fun _ r hr => absurd hr (List.not_mem_nil r)⟩, ?_⟩
      intro r hr
      cases hr
    | cons r0 rs =>
      dsimp only
      have hxmem : x ∈ l.transactions := by
        by_contra hxm
        rw [List.erase_of_not_mem hxm] at he
        rw [he] at hw1
        rw [hw1 rfl] at hq
        cases hq
      have hnone : ∀ r ∈ r0 :: rs, r.transaction ≠ x := by
        intro r hr
        exact hw2 hxmem r (by rw [hq]; exact hr)
      refine ⟨⟨?_, ?_⟩, ?_⟩
      · intro hcon
        exact absurd hcon (by simp)
      · intro _ r hr
        exact hnone r (List.mem_cons_of_mem r0 hr)
      · intro r hr hrx
        exact absurd hrx (hnone r hr)
  · refine ⟨⟨?_, ?_⟩, fun r hr _ => hr⟩
    · intro hcon
      have hcon2 : l.transactions.erase x = [] := hcon
      exact absurd (by rw [hcon2]; rfl) h0
    · intro hx r hr
      exact hw2 (List.mem_of_mem_erase hx) r hr

lemma releaseStep_own (x : Nat) (tbl : Table) (k : String)
    (hT : TableHoldWaitOk x tbl) :
    TableHoldWaitOk x (releaseStep x tbl k) ∧
    (∀ k2 l, Table.get tbl k2 = some l →
      ∀ r ∈ l.request_queue, r.transaction = x →
        ∃ l2, Table.get (releaseStep x tbl k) k2 = some l2 ∧
          r ∈ l2.request_queue) := by
  unfold releaseStep
  cases hget : Table.get tbl k with
  | none =>
    exact ⟨hT, fun k2 l hl r hr hrx => ⟨l, hl, hr⟩⟩
  | some l0 =>
    dsimp only
    have hl0 : HoldWaitOk x l0 := by
      obtain ⟨p, hp, he⟩ := table_get_mem tbl k l0 hget
      exact he ▸ hT p hp
    obtain ⟨hw2, hkeep⟩ := release_lock_own x l0 hl0
    constructor
    · intro p hp
      rcases mem_table_set tbl k _ p hp with he | hmem
      · rw [he]
        exact hw2
      · exact hT p hmem
    · intro k2 l hl r hr hrx
      by_cases hkk : k2 = k
      · subst hkk
        rw [hget] at hl
        cases hl
        exact ⟨l0.release_lock x,
          table_get_set_eq tbl k2 _ (by rw [hget]; simp),
          hkeep r hr hrx⟩
      · exact ⟨l, by rw [table_get_set_ne tbl k k2 _ hkk]; exact hl, hr⟩

lemma release_fold_own (x : Nat) (keys : List String) :
    ∀ tbl, TableHoldWaitOk x tbl →
      TableHoldWaitOk x (List.foldl (releaseStep x) tbl keys) ∧
      (∀ k2 l, Table.get tbl k2 = some l →
        ∀ r ∈ l.request_queue, r.transaction = x →
          ∃ l2, Table.get (List.foldl (releaseStep x) tbl keys) k2 = some l2 ∧
            r ∈ l2.request_queue) := by
  induction keys with
  | nil =>
    intro tbl hT
    exact ⟨hT, fun k2 l hl r hr _ => ⟨l, hl, hr⟩⟩
  | cons k rest ih =>
    intro tbl hT
    obtain ⟨hs1, hs2⟩ := releaseStep_own x tbl k hT
    obtain ⟨hi1, hi2⟩ := ih (releaseStep x tbl k) hs1
    rw [List.foldl_cons]
    refine ⟨hi1, ?_⟩
    intro k2 l hl r hr hrx
    obtain ⟨l2, hl2, hr2⟩ := hs2 k2 l hl r hr hrx
    exact hi2 k2 l2 hl2 r hr2 hrx

lemma release_fold_frame (x : Nat) (keys : List String) :
    ∀ tbl k, k ∉ keys →
      Table.get (List.foldl (releaseStep x) tbl keys) k = Table.get tbl k := by
  induction keys with
  | nil => intro tbl k _; rfl
  | cons k0 rest ih =>
    intro tbl k hk
    rw [List.foldl_cons]
    rw [ih (releaseStep x tbl k0) k (fun hm => hk (List.mem_cons_of_mem _ hm))]
    unfold releaseStep
    cases hget : Table.get tbl k0 with
    | none => rfl
    | some l0 =>
      dsimp only
      exact table_get_set_ne tbl k0 k _ (fun he => hk (he ▸ List.mem_cons_self _ _))

/-- The zombie-grant scenario for C10: transaction 2 reads "a" (shared),
transaction 1 reads "a" (shared) and then tries to upgrade with a put —
blocked, dropping its hold and queueing (1, Exclusive). -/
def c10stepA : StepResult :=
  perform_get (Handler.init 2) [] (fun _ => none) "a"

def c10stepB : StepResult :=
  perform_get (Handler.init 1) c10stepA.table c10stepA.store "a"

def c10stepC : StepResult :=
  perform_put c10stepB.handler c10stepB.table c10stepB.store "a" "9"

/-- Transaction 1 aborts while still Blocked on its upgrade. -/
def c10abort : Handler × Table × Store × String :=
  abort c10stepC.handler c10stepC.table c10stepC.store USER

/-- Transaction 2 then commits, releasing the shared lock. -/
def c10commit : Handler × Table × String :=
  commit c10stepA.handler c10abort.2.1

/-- C10: `release_and_grant_locks` removes the transaction only from the
holder sets of the acquired keys — locks of other keys are untouched, and
no wait-queue entry of the transaction is ever removed (under the
protocol's hold/wait exclusion). Concretely, transaction 1 aborted while
Blocked on its upgrade of "a" stays queued there, and transaction 2's later
commit grants the terminated transaction 1 the exclusive lock. -/
theorem C10_release_frame_and_zombie_grant (h : Handler) (tbl : Table)
    (hT : TableHoldWaitOk h.xid tbl) :
    (∀ k, k ∉ h.acquired_locks →
      Table.get (release_and_grant_locks h tbl).2 k = Table.get tbl k) ∧
    (∀ k l, Table.get tbl k = some l →
      ∀ r ∈ l.request_queue, r.transaction = h.xid →
        ∃ l2, Table.get (release_and_grant_locks h tbl).2 k = some l2 ∧
          r ∈ l2.request_queue) ∧
    (Table.get c10abort.2.1 "a" =
      some { transactions := [2], mode := some LockMode.SharedLock,
             request_queue :=
               [{ transaction := 1, mode := LockMode.ExclusiveLock }] } ∧
     Table.get c10commit.2.1 "a" =
      some { transactions := [1], mode := some LockMode.ExclusiveLock,
             request_queue := [] }) := by
  refine ⟨?_, ?_, by decide, by decide⟩
  · intro k hk
    exact release_fold_frame h.xid h.acquired_locks tbl k hk
  · intro k l hl r hr hrx
    exact (release_fold_own h.xid h.acquired_locks tbl hT).2 k l hl r hr hrx

/-- Witness for C10: a table where 1 holds "a" (shared, with 3 queued) and
is absent from "b"; releasing only touches "a". -/
theorem C10_release_frame_and_zombie_grant_witness :
    TableHoldWaitOk 1
      [("a", { transactions := [1, 2], mode := some LockMode.SharedLock,
               request_queue :=
                 [{ transaction := 3, mode := LockMode.ExclusiveLock }] }),
       ("b", { transactions := [2], mode := some LockMode.SharedLock,
               request_queue := [] })] ∧
    Table.get (release_and_grant_locks
        { acquired_locks := ["a"], desired_lock := none, xid := 1,
          undo_log := [] }
        [("a", { transactions := [1, 2], mode := some LockMode.SharedLock,
                 request_queue :=
                   [{ transaction := 3, mode := LockMode.ExclusiveLock }] }),
         ("b", { transactions := [2], mode := some LockMode.SharedLock,
                 request_queue := [] })]).2 "b" =
      Table.get
        [("a", { transactions := [1, 2], mode := some LockMode.SharedLock,
                 request_queue :=
                   [{ transaction := 3, mode := LockMode.ExclusiveLock }] }),
         ("b", { transactions := [2], mode := some LockMode.SharedLock,
                 request_queue := [] })] "b" :=
  ⟨by decide,
   (C10_release_frame_and_zombie_grant
      { acquired_locks := ["a"], desired_lock := none, xid := 1,
        undo_log := [] }
      [("a", { transactions := [1, 2], mode := some LockMode.SharedLock,
               request_queue :=
                 [{ transaction := 3, mode := LockMode.ExclusiveLock }] }),
       ("b", { transactions := [2], mode := some LockMode.SharedLock,
               request_queue := [] })] (by decide)).1 "b" (by decide)⟩
